import Mathlib

/-!
Shallow embedding of the beam search decoding engine of `captioner`
(`src/captioner/utils.py`, class `BeamSearch` and helper `_sort_list`),
together with theorems checking the design document against it.

Modelling conventions:
* tokens and contexts are opaque type parameters `τ` and `γ`;
* log-probability scores (`float` in the source) are exact rationals `ℚ`;
* `beam_size` and `max_len` are Python integers, modelled as `ℤ`;
  Python's `range(max_len)` runs `max_len.toNat` iterations and Python's
  slicing `xs[:beam_size]` is `pyTake`;
* the final `np.exp(branch.score)` conversion (line 37 of the source) is not
  computable over `ℝ`, so the executable `search` returns the content together
  with the final cumulative log-score; statements about the *probability* of a
  returned branch apply `Real.exp` to that score, exactly as the source does;
* the probabilistic path of `_sort_list` draws a weighted permutation with
  `np.random.choice(..., replace=False, p=probs)`; that random draw is
  modelled by an explicit oracle parameter `sample` (the deterministic path
  never consults it); on an *empty* list the probabilistic path raises
  `ValueError` (`np.random.choice` rejects an empty population, and the
  normalized `p` of an empty array cannot sum to 1), which the total
  `sortList`/`search` cannot represent — the error-aware variants `sortListE`,
  `searchStepE`, `searchLoopE` and `searchE` return `Option`, with `none`
  standing for the raised `ValueError`, and agree with the total model
  whenever no error occurs (in particular always in deterministic mode).
-/

namespace Captioner

/-- Branch of the beam search, `namedtuple('Branch', ['content', 'score', 'context'])`
in the source: `content` is the token sequence produced so far, `score` the
cumulative log-probability, `context` the opaque state threaded through the
builder. -/
structure Branch (τ γ : Type) where
  content : List τ
  score : ℚ
  context : γ
deriving DecidableEq

/-- Python list slicing `xs[:n]` for an arbitrary integer bound `n`:
a nonnegative bound keeps the first `n` elements, a negative bound drops the
last `|n|` elements (clamped at zero, as in Python). -/
def pyTake {α : Type} (n : ℤ) (xs : List α) : List α :=
  if 0 ≤ n then xs.take n.toNat else xs.take (xs.length - (-n).toNat)

/-- Builder callback contract of `BeamSearch.__init__` / §4.1 of the design:
`build(content, context) -> (candidate_contents, candidate_scores, next_context)`. -/
def Builder (τ γ : Type) : Type := List τ → γ → List τ × List ℚ × γ

/-- Oracle standing for the weighted random draw
`np.random.choice(range(len(x)), len(x), replace=False, p=probs)` of
`_sort_list`'s probabilistic path on a *nonempty* list.  A faithful oracle
returns a permutation of its input; theorems that need this assume it
explicitly.  The deterministic path never consults the oracle, and on an empty
list the source raises `ValueError` before any draw — that failure is not the
oracle's to model, it is represented by `sortListE` returning `none`. -/
def Sampler (τ γ : Type) : Type := List (Branch τ γ) → List (Branch τ γ)

/-- Stable insertion (by descending key) of an element that originally
occurred *before* every element of the list: it is placed in front of every
element of equal or smaller key, behind every element of strictly larger key. -/
def insertDesc {α : Type} (key : α → ℚ) (a : α) : List α → List α
  | [] => [a]
  | b :: t => if key b ≤ key a then a :: b :: t else b :: insertDesc key a t

/-- Stable sort by descending key: structurally recursive insertion sort,
extensionally equal to Python's stable `x.sort(key=key, reverse=True)`
(elements of equal key keep their original relative order). -/
def sortDescBy {α : Type} (key : α → ℚ) : List α → List α
  | [] => []
  | a :: t => insertDesc key a (sortDescBy key t)

/-- Embedding of `_sort_list(x, key, probabilistic)` restricted to completing
executions.  The deterministic path is Python's stable
`x.sort(key=key, reverse=True)`, embedded as the stable descending insertion
sort `sortDescBy`.  At the single call site the source's key is
`np.exp(branch.score)`; the exponential is strictly monotone, so the ordering
it induces is the ordering by `branch.score`, which the embedding uses as the
(computable, `ℚ`-valued) key.  The probabilistic path is the sampling oracle;
on an empty list that path actually raises `ValueError` in the source, an
outcome this total function cannot express — theorems about completing
without an error use the error-aware `sortListE` instead. -/
def sortList {α : Type} (sample : List α → List α) (x : List α) (key : α → ℚ)
    (probabilistic : Bool) : List α :=
  if probabilistic = false then sortDescBy key x
  else sample x

namespace BeamSearch

/-- Embedding of `BeamSearch._merge`: concatenate contents, add scores, adopt
the second branch's context. -/
def merge {τ γ : Type} (b1 b2 : Branch τ γ) : Branch τ γ :=
  { content := b1.content ++ b2.content, score := b1.score + b2.score, context := b2.context }

/-- Embedding of `BeamSearch._prune_branches`: sort by descending probability
(`np.exp(branch.score)` in the source, equivalently by descending `score`) and
keep the slice `[:beam_size]`. -/
def pruneBranches {τ γ : Type} (sample : Sampler τ γ) (branches : List (Branch τ γ))
    (beam_size : ℤ) (probabilistic : Bool) : List (Branch τ γ) :=
  pyTake beam_size (sortList sample branches (fun branch => branch.score) probabilistic)

/-- Embedding of `BeamSearch._get_branches`: query the builder, pair candidate
tokens with candidate scores (`zip`, which silently truncates to the shorter
sequence), build one single-token branch per pair all sharing the returned
context, locally prune to `beam_size` when not probabilistic, and merge each
survivor with the parent branch. -/
def getBranches {τ γ : Type} (build : Builder τ γ) (sample : Sampler τ γ)
    (branch : Branch τ γ) (beam_size : ℤ) (probabilistic : Bool) : List (Branch τ γ) :=
  let r := build branch.content branch.context
  let nodes := (r.1.zip r.2.1).map
    (fun cs => { content := [cs.1], score := cs.2, context := r.2.2 })
  let nodes :=
    if probabilistic = false then pruneBranches sample nodes beam_size probabilistic
    else nodes
  nodes.map (fun node => merge branch node)

/-- Root branch `Branch([], 0, context)` opening `BeamSearch._search`. -/
def rootBranch {τ γ : Type} (context : γ) : Branch τ γ :=
  { content := [], score := 0, context := context }

/-- One iteration of the loop of `BeamSearch._search`: expand every branch of
the beam with `_get_branches`, flatten (`chain(*...)`), and prune globally. -/
def searchStep {τ γ : Type} (build : Builder τ γ) (sample : Sampler τ γ)
    (beam_size : ℤ) (probabilistic : Bool) (branches : List (Branch τ γ)) :
    List (Branch τ γ) :=
  pruneBranches sample
    ((branches.map (fun branch => getBranches build sample branch beam_size probabilistic)).flatten)
    beam_size probabilistic

/-- Embedding of `BeamSearch._search` (and `__call__`): start from the root
branch, iterate `searchStep` once per element of `range(max_len)`, then apply
the finalization `Branch(branch.content, np.exp(branch.score), None)`.  Since
`Real.exp` is not computable the result keeps the final cumulative log-score;
the probability reported by the source for a returned pair `p` is
`Real.exp p.2`. -/
def search {τ γ : Type} (build : Builder τ γ) (sample : Sampler τ γ) (beam_size : ℤ)
    (context : γ) (max_len : ℤ) (probabilistic : Bool) : List (List τ × ℚ) :=
  (((searchStep build sample beam_size probabilistic)^[max_len.toNat])
      [rootBranch context]).map
    (fun branch => (branch.content, branch.score))

/-- Modelled from the spec: the expansion of one parent *without* the
intra-branch local prune — exactly `_get_branches` with the
`if not probabilistic` prune skipped, all candidate pairs kept. -/
def getBranchesFull {τ γ : Type} (build : Builder τ γ) (branch : Branch τ γ) :
    List (Branch τ γ) :=
  let r := build branch.content branch.context
  ((r.1.zip r.2.1).map
      (fun cs => { content := [cs.1], score := cs.2, context := r.2.2 })).map
    (fun node => merge branch node)

/-- Full candidate pool produced from a beam in one step when no local prune
is applied (flattening of `getBranchesFull` over the beam). -/
def stepPool {τ γ : Type} (build : Builder τ γ) (branches : List (Branch τ γ)) :
    List (Branch τ γ) :=
  (branches.map (fun branch => getBranchesFull build branch)).flatten

/-- Modelled from the spec: one deterministic search step of the variant that
"skips the local prune and applies only the global top-`beam_size` prune over
the full pool". -/
def searchStepFull {τ γ : Type} (build : Builder τ γ) (sample : Sampler τ γ)
    (beam_size : ℤ) (branches : List (Branch τ γ)) : List (Branch τ γ) :=
  pruneBranches sample (stepPool build branches) beam_size false

/-- Modelled from the spec: the deterministic search of the variant without
intra-branch local pruning, finalized like `search`. -/
def searchFull {τ γ : Type} (build : Builder τ γ) (sample : Sampler τ γ) (beam_size : ℤ)
    (context : γ) (max_len : ℤ) : List (List τ × ℚ) :=
  (((searchStepFull build sample beam_size)^[max_len.toNat]) [rootBranch context]).map
    (fun branch => (branch.content, branch.score))

/-- Candidate single-token branches built from the builder's answer for one
parent (the `nodes` list of `_get_branches` before any pruning or merging). -/
def nodesOf {τ γ : Type} (build : Builder τ γ) (p : Branch τ γ) : List (Branch τ γ) :=
  ((build p.content p.context).1.zip (build p.content p.context).2.1).map
    (fun cs => ⟨[cs.1], cs.2, (build p.content p.context).2.2⟩)

/-- Number of branches of `l` whose score is strictly above that of `x`; with
pairwise-distinct scores this is the rank of `x` in the descending order. -/
def above {τ γ : Type} (l : List (Branch τ γ)) (x : Branch τ γ) : ℕ :=
  l.countP (fun y => decide (x.score < y.score))

end BeamSearch

/-- Error-aware embedding of `_sort_list`: like `sortList`, but the
probabilistic path on an empty list returns `none`, modelling the `ValueError`
raised by `np.random.choice` there (empty population; the renormalized `p` of
an empty array cannot sum to 1).  On a nonempty list the idealized weights
`exp(score)` are positive, so the draw succeeds and is the oracle's
permutation. -/
def sortListE {α : Type} (sample : List α → List α) (x : List α) (key : α → ℚ)
    (probabilistic : Bool) : Option (List α) :=
  if probabilistic = false then some (sortDescBy key x)
  else if x.isEmpty then none else some (sample x)

namespace BeamSearch

/-- Error-aware embedding of `BeamSearch._prune_branches`: sort with
`sortListE` (propagating the probabilistic-mode `ValueError` on an empty
pool), then keep the slice `[:beam_size]`. -/
def pruneBranchesE {τ γ : Type} (sample : Sampler τ γ) (branches : List (Branch τ γ))
    (beam_size : ℤ) (probabilistic : Bool) : Option (List (Branch τ γ)) :=
  (sortListE sample branches (fun branch => branch.score) probabilistic).map
    (fun sorted => pyTake beam_size sorted)

/-- Error-aware embedding of one iteration of the `_search` loop.
`_get_branches` itself can only invoke the *deterministic* sort (its local
prune runs only when `probabilistic` is falsy), which never raises, so the
expansion phase is the total `getBranches`; only the global prune can raise. -/
def searchStepE {τ γ : Type} (build : Builder τ γ) (sample : Sampler τ γ)
    (beam_size : ℤ) (probabilistic : Bool) (branches : List (Branch τ γ)) :
    Option (List (Branch τ γ)) :=
  pruneBranchesE sample
    ((branches.map (fun branch => getBranches build sample branch beam_size probabilistic)).flatten)
    beam_size probabilistic

/-- Error-aware embedding of the `for _ in range(max_len)` loop of `_search`:
a raised `ValueError` aborts the remaining iterations. -/
def searchLoopE {τ γ : Type} (build : Builder τ γ) (sample : Sampler τ γ)
    (beam_size : ℤ) (probabilistic : Bool) :
    ℕ → List (Branch τ γ) → Option (List (Branch τ γ))
  | 0, branches => some branches
  | n + 1, branches =>
    match searchStepE build sample beam_size probabilistic branches with
    | none => none
    | some next => searchLoopE build sample beam_size probabilistic n next

/-- Error-aware embedding of `BeamSearch._search`: `none` is a raised
`ValueError` escaping the call, `some` a normal return (finalized like
`search`, the log-score standing for the reported `np.exp` probability). -/
def searchE {τ γ : Type} (build : Builder τ γ) (sample : Sampler τ γ) (beam_size : ℤ)
    (context : γ) (max_len : ℤ) (probabilistic : Bool) :
    Option (List (List τ × ℚ)) :=
  (searchLoopE build sample beam_size probabilistic max_len.toNat
      [rootBranch context]).map
    (fun branches => branches.map (fun branch => (branch.content, branch.score)))

end BeamSearch

namespace BeamSearch

/-- One builder-reported expansion step: `b` extends `p` by one candidate token
`c` whose reported log-probability is `s`, with the context returned by the
builder for `p`. -/
def OneStep {τ γ : Type} (build : Builder τ γ) (p b : Branch τ γ) (s : ℚ) : Prop :=
  ∃ c, (c, s) ∈ (build p.content p.context).1.zip (build p.content p.context).2.1 ∧
    b = { content := p.content ++ [c], score := p.score + s,
          context := (build p.content p.context).2.2 }

/-- Relation `StepsTo build p b logs`: branch `b` arises from branch `p` by a chain of
builder-reported expansion steps whose reported per-token log-probabilities
are, in order, `logs`. -/
inductive StepsTo {τ γ : Type} (build : Builder τ γ) :
    Branch τ γ → Branch τ γ → List ℚ → Prop where
  | refl (b : Branch τ γ) : StepsTo build b b []
  | step {p q b : Branch τ γ} {s : ℚ} {logs : List ℚ} :
      OneStep build p q s → StepsTo build q b logs → StepsTo build p b (s :: logs)

end BeamSearch

open BeamSearch

theorem insertDesc_perm {α : Type} (key : α → ℚ) (a : α) (l : List α) :
    (insertDesc key a l).Perm (a :: l) := by
  induction l with
  | nil => simp [insertDesc]
  | cons b t ih =>
    by_cases h : key b ≤ key a
    · simp [insertDesc, h]
    · simp only [insertDesc, if_neg h]
      exact (ih.cons b).trans (List.Perm.swap a b t)

theorem sortDescBy_perm {α : Type} (key : α → ℚ) (l : List α) :
    (sortDescBy key l).Perm l := by
  induction l with
  | nil => simp [sortDescBy]
  | cons a t ih => exact (insertDesc_perm key a _).trans (ih.cons a)

theorem insertDesc_sorted {α : Type} {key : α → ℚ} {a : α} {l : List α}
    (h : l.Pairwise (fun x y => key y ≤ key x)) :
    (insertDesc key a l).Pairwise (fun x y => key y ≤ key x) := by
  induction l with
  | nil => simp [insertDesc]
  | cons b t ih =>
    rcases List.pairwise_cons.mp h with ⟨hb, ht⟩
    by_cases hba : key b ≤ key a
    · simp only [insertDesc, if_pos hba]
      refine List.pairwise_cons.mpr ⟨?_, h⟩
      intro x hx
      rcases List.mem_cons.mp hx with rfl | hx
      · exact hba
      · exact (hb x hx).trans hba
    · simp only [insertDesc, if_neg hba]
      refine List.pairwise_cons.mpr ⟨?_, ih ht⟩
      intro x hx
      have hx2 : x ∈ a :: t := (insertDesc_perm key a t).mem_iff.mp hx
      rcases List.mem_cons.mp hx2 with rfl | hx2
      · exact le_of_lt (lt_of_not_le hba)
      · exact hb x hx2

theorem sortDescBy_sorted {α : Type} (key : α → ℚ) (l : List α) :
    (sortDescBy key l).Pairwise (fun x y => key y ≤ key x) := by
  induction l with
  | nil => simp [sortDescBy]
  | cons a t ih => exact insertDesc_sorted ih

theorem pyTake_sublist {α : Type} (n : ℤ) (xs : List α) : (pyTake n xs).Sublist xs := by
  unfold pyTake
  split
  · exact List.take_sublist _ _
  · exact List.take_sublist _ _

theorem pyTake_length_le {α : Type} {n : ℤ} (h : 0 ≤ n) (xs : List α) :
    (pyTake n xs).length ≤ n.toNat := by
  simp only [pyTake, if_pos h, List.length_take]
  exact min_le_left _ _

theorem pyTake_all {α : Type} {n : ℤ} {xs : List α} (h : xs.length ≤ n.toNat) :
    pyTake n xs = xs := by
  unfold pyTake
  split
  · exact List.take_of_length_le h
  · have h0 : xs.length = 0 := by omega
    rw [List.length_eq_zero.mp h0]
    simp

namespace BeamSearch

theorem pruneBranches_det {τ γ : Type} (sample : Sampler τ γ) (l : List (Branch τ γ))
    (bs : ℤ) :
    pruneBranches sample l bs false =
      pyTake bs (sortDescBy (fun branch => branch.score) l) := rfl

theorem pruneBranches_det_subperm {τ γ : Type} (sample : Sampler τ γ)
    (l : List (Branch τ γ)) (bs : ℤ) :
    (pruneBranches sample l bs false).Subperm l := by
  rw [pruneBranches_det]
  exact ((pyTake_sublist _ _).subperm).trans (sortDescBy_perm _ _).subperm

theorem pruneBranches_det_sorted {τ γ : Type} (sample : Sampler τ γ)
    (l : List (Branch τ γ)) (bs : ℤ) :
    (pruneBranches sample l bs false).Pairwise (fun x y => y.score ≤ x.score) := by
  rw [pruneBranches_det]
  exact List.Pairwise.sublist (pyTake_sublist _ _) (sortDescBy_sorted _ _)

theorem pruneBranches_det_length_le {τ γ : Type} (sample : Sampler τ γ)
    (l : List (Branch τ γ)) {bs : ℤ} (h : 0 ≤ bs) :
    (pruneBranches sample l bs false).length ≤ bs.toNat := by
  rw [pruneBranches_det]
  exact pyTake_length_le h _

theorem pruneBranches_det_perm_of_le {τ γ : Type} (sample : Sampler τ γ)
    {l : List (Branch τ γ)} {bs : ℤ} (h : l.length ≤ bs.toNat) :
    (pruneBranches sample l bs false).Perm l := by
  rw [pruneBranches_det]
  have hlen : (sortDescBy (fun branch => branch.score) l).length = l.length :=
    (sortDescBy_perm _ _).length_eq
  rw [pyTake_all (by rw [hlen]; exact h)]
  exact sortDescBy_perm _ _

theorem searchStep_beam_zero {τ γ : Type} (build : Builder τ γ) (sample : Sampler τ γ)
    (prob : Bool) (l : List (Branch τ γ)) :
    searchStep build sample 0 prob l = [] := by
  have h : ∀ m : List (Branch τ γ), pyTake (0 : ℤ) m = [] := by
    intro m
    simp [pyTake]
  cases prob with
  | false =>
    simp only [searchStep, pruneBranches, sortList]
    exact h _
  | true =>
    simp only [searchStep, pruneBranches, sortList]
    exact h _

theorem search_beam_zero_aux {τ γ : Type} (build : Builder τ γ) (sample : Sampler τ γ)
    (ctx : γ) (prob : Bool) {k : ℕ} (h : 1 ≤ k) :
    (searchStep build sample 0 prob)^[k] ([rootBranch ctx] : List (Branch τ γ)) = [] := by
  obtain ⟨m, rfl⟩ : ∃ m, k = m + 1 := ⟨k - 1, by omega⟩
  rw [Function.iterate_succ_apply']
  exact searchStep_beam_zero _ _ _ _

theorem searchStepE_det {τ γ : Type} (build : Builder τ γ) (sample : Sampler τ γ)
    (bs : ℤ) (l : List (Branch τ γ)) :
    searchStepE build sample bs false l = some (searchStep build sample bs false l) := rfl

theorem searchLoopE_det {τ γ : Type} (build : Builder τ γ) (sample : Sampler τ γ)
    (bs : ℤ) : ∀ (n : ℕ) (l : List (Branch τ γ)),
    searchLoopE build sample bs false n l =
      some ((searchStep build sample bs false)^[n] l) := by
  intro n
  induction n with
  | zero =>
    intro l
    rfl
  | succ m ih =>
    intro l
    rw [Function.iterate_succ_apply]
    simp only [searchLoopE, searchStepE_det]
    exact ih _

theorem searchE_det {τ γ : Type} (build : Builder τ γ) (sample : Sampler τ γ)
    (bs : ℤ) (ctx : γ) (ml : ℤ) :
    searchE build sample bs ctx ml false = some (search build sample bs ctx ml false) := by
  rw [searchE, search, searchLoopE_det]
  rfl

end BeamSearch

/-- Claim C8 (confirmed): in deterministic mode the search never consults the
random-sampling oracle, so two calls with the same pure builder, beam size,
initial context and `max_len` — regardless of the state of the random
source — return identical output sequences. -/
theorem search_det_sample_independent {τ γ : Type} (build : Builder τ γ)
    (sample sample2 : Sampler τ γ) (bs : ℤ) (ctx : γ) (ml : ℤ) :
    search build sample bs ctx ml false = search build sample2 bs ctx ml false := by
  have hp : ∀ l, pruneBranches sample l bs false = pruneBranches sample2 l bs false := by
    intro l
    rw [pruneBranches_det, pruneBranches_det]
  have hg : ∀ b, getBranches build sample b bs false =
      getBranches build sample2 b bs false := by
    intro b
    simp only [getBranches, hp]
  have hstep : searchStep build sample bs false = searchStep build sample2 bs false := by
    funext l
    simp only [searchStep, hp, hg]
  simp only [search, hstep]

/-- Claim C10 (counterexample): with `beam_size = 0`, `max_len = 2` and
`probabilistic` truthy, the search does not return the empty sequence: the
second iteration applies the probabilistic global prune to the empty pool and
`np.random.choice` raises `ValueError` (modelled by `none`). -/
theorem search_beam_zero_prob_raises_example :
    searchE (fun _ (ctx : ℕ) => ([5, 7], [-1], ctx)) id 0 (0 : ℕ) 2 true = none := by
  have h2 : ((2 : ℤ)).toNat = 2 := rfl
  simp only [searchE, h2]
  norm_num [searchLoopE, searchStepE, pruneBranchesE, sortListE, getBranches,
    pruneBranches, sortList, sortDescBy, insertDesc, pyTake, merge, rootBranch]

/-- Claim C10 (amended): in deterministic mode, `beam_size = 0` with
`max_len ≥ 1` completes without raising and returns the empty sequence — the
first global prune truncates the pool to the empty beam and every later step
and the finalization operate on it.  (In probabilistic mode the prune of the
empty pool raises `ValueError` instead, see the counterexample.) -/
theorem search_beam_zero_empty {τ γ : Type} (build : Builder τ γ)
    (sample : Sampler τ γ) (ctx : γ) {ml : ℤ} (h : 1 ≤ ml) :
    searchE build sample 0 ctx ml false = some [] := by
  have hk : 1 ≤ ml.toNat := by omega
  rw [searchE_det]
  simp only [search, search_beam_zero_aux build sample ctx false hk, List.map_nil]

/-- Witness for the `beam_size = 0` claim at a concrete builder and
`max_len = 3`, deterministic mode. -/
theorem search_beam_zero_empty_witness :
    searchE (fun _ (ctx : ℕ) => ([5, 7], [-1], ctx)) id 0 (0 : ℕ) 3 false = some [] :=
  search_beam_zero_empty (fun _ (ctx : ℕ) => ([5, 7], [-1], ctx)) id 0 (by norm_num)

/-- Claim C5 (counterexample): calls with `beam_size ≤ 0` or `max_len < 0` are
not rejected with a configuration error: both return a result beam normally
(`beam_size = 0` returns the empty beam after a full search step, and
`max_len = -1` returns the finalized root branch). -/
theorem invalid_params_return_example :
    search (fun _ (ctx : ℕ) => ([5, 7], [-1], ctx)) id 0 (0 : ℕ) 1 false = [] ∧
    search (fun _ (ctx : ℕ) => ([5, 7], [-1], ctx)) id 2 (0 : ℕ) (-1) false =
      [([], 0)] := by
  constructor
  · simp only [search, Int.toNat_one]
    norm_num [searchStep, pruneBranches, getBranches, sortList, sortDescBy,
      insertDesc, pyTake, merge, rootBranch,
      Function.iterate_succ_apply', Function.iterate_zero_apply]
  · have h : ((-1 : ℤ)).toNat = 0 := rfl
    simp only [search, h]
    norm_num [rootBranch, Function.iterate_zero_apply]

/-- Claim C5 (amended): `__call__` and `_search` perform no parameter
validation and raise no configuration error: a call with `max_len < 0`
performs zero steps and returns the finalized root branch without error in
either mode, and a call with `beam_size = 0` and `max_len ≥ 1` in
deterministic mode completes without error and returns the empty beam (in
probabilistic mode such a call instead hits `np.random.choice`'s `ValueError`
on the empty pool at the next prune — still not an up-front configuration
error). -/
theorem search_no_validation {τ γ : Type} (build : Builder τ γ) (sample : Sampler τ γ)
    (bs : ℤ) (ctx : γ) (ml : ℤ) (prob : Bool) :
    (ml < 0 → searchE build sample bs ctx ml prob = some [([], 0)]) ∧
    (1 ≤ ml → searchE build sample 0 ctx ml false = some []) := by
  constructor
  · intro h
    have h0 : ml.toNat = 0 := Int.toNat_of_nonpos (le_of_lt h)
    simp [searchE, h0, searchLoopE, rootBranch]
  · intro h
    have hk : 1 ≤ ml.toNat := by omega
    rw [searchE_det]
    simp only [search, search_beam_zero_aux build sample ctx false hk, List.map_nil]

/-- Witness for the no-validation theorem at `max_len = -2` in probabilistic
mode and at `beam_size = 0`, `max_len = 2` in deterministic mode. -/
theorem search_no_validation_witness :
    searchE (fun _ (ctx : ℕ) => ([5, 7], [-1], ctx)) id 2 (0 : ℕ) (-2) true =
      some [([], 0)] ∧
    searchE (fun _ (ctx : ℕ) => ([5, 7], [-1], ctx)) id 0 (0 : ℕ) 2 false = some [] :=
  ⟨(search_no_validation (fun _ (ctx : ℕ) => ([5, 7], [-1], ctx)) id 2 0 (-2)
      true).1 (by norm_num),
   (search_no_validation (fun _ (ctx : ℕ) => ([5, 7], [-1], ctx)) id 0 0 2
      false).2 (by norm_num)⟩

/-- Claim C6 (counterexample): a builder returning two candidate tokens but a
single candidate score is not reported as a contract violation; `zip` silently
truncates the pair lists and the search returns the one zipped candidate. -/
theorem mismatched_lengths_truncated_example :
    search (fun _ (ctx : ℕ) => ([5, 7], [-1], ctx)) id 2 (0 : ℕ) 1 false =
      [([5], -1)] := by
  simp only [search, Int.toNat_one]
  norm_num [searchStep, pruneBranches, getBranches, sortList, sortDescBy,
    insertDesc, pyTake, merge, rootBranch,
    Function.iterate_succ_apply', Function.iterate_zero_apply]

/-- Claim C6 (amended): mismatched candidate-content and candidate-score
lengths from the builder are silently truncated to the shorter sequence
(Python `zip` semantics), with no error: in probabilistic mode, where no local
prune interferes, the number of branches produced from a parent is exactly the
minimum of the two lengths. -/
theorem getBranches_zip_truncates {τ γ : Type} (build : Builder τ γ)
    (sample : Sampler τ γ) (b : Branch τ γ) (bs : ℤ) :
    (getBranches build sample b bs true).length =
      min (build b.content b.context).1.length
        (build b.content b.context).2.1.length := by
  simp [getBranches, List.length_zip]

/-- Claim C4 (counterexample): the finalization applies `exp` to each score
with no renormalization across the beam: a builder proposing two candidates of
log-probability `0` yields a returned beam whose probabilities sum to `2`,
not `1`. -/
theorem probabilities_sum_ne_one_example :
    (((search (fun _ (ctx : ℕ) => ([0, 1], [0, 0], ctx)) id 2 (0 : ℕ) 1 false).map
        (fun p => Real.exp ((p.2 : ℝ)))).sum) ≠ 1 := by
  have he : search (fun _ (ctx : ℕ) => ([0, 1], [0, 0], ctx)) id 2 (0 : ℕ) 1 false =
      [([0], 0), ([1], 0)] := by
    simp only [search, Int.toNat_one]
    norm_num [searchStep, pruneBranches, getBranches, sortList, sortDescBy,
      insertDesc, pyTake, merge, rootBranch,
      Function.iterate_succ_apply', Function.iterate_zero_apply]
  rw [he]
  norm_num [Real.exp_zero]

/-- Claim C4 (amended): after `max_len` steps the surviving branch scores are
converted from log-space by exponentiation with no renormalization across the
returned beam, so the returned probabilities need not sum to 1; for
`max_len = 0` the sum is 1 (the single root branch has probability `exp 0`). -/
theorem search_zero_steps_probability_sum_one {τ γ : Type} (build : Builder τ γ)
    (sample : Sampler τ γ) (bs : ℤ) (ctx : γ) (prob : Bool) :
    ((search build sample bs ctx 0 prob).map
        (fun p => Real.exp ((p.2 : ℝ)))).sum = 1 := by
  have h0 : search build sample bs ctx 0 prob = [([], 0)] := rfl
  rw [h0]
  norm_num [Real.exp_zero]

/-- Claim C7 (confirmed): for any `beam_size ≥ 1`, `max_len = 0` performs zero
expansion steps: the result is exactly the finalized root — a single branch of
empty content and probability `exp 0 = 1` — and the builder is never
consulted (every builder yields the same result). -/
theorem search_max_len_zero {τ γ : Type} (build : Builder τ γ) (sample : Sampler τ γ)
    (bs : ℤ) (ctx : γ) (prob : Bool) (h : 1 ≤ bs) :
    search build sample bs ctx 0 prob = [([], 0)] ∧
    (∀ p ∈ search build sample bs ctx 0 prob,
      p.1 = [] ∧ Real.exp ((p.2 : ℝ)) = 1) ∧
    (∀ build2 : Builder τ γ,
      search build2 sample bs ctx 0 prob = search build sample bs ctx 0 prob) := by
  refine ⟨rfl, ?_, fun build2 => rfl⟩
  intro p hp
  have hs : search build sample bs ctx 0 prob = [([], (0 : ℚ))] := rfl
  rw [hs] at hp
  have hp2 : p = ([], (0 : ℚ)) := List.mem_singleton.mp hp
  rw [hp2]
  norm_num [Real.exp_zero]

/-- Witness for the `max_len = 0` claim at `beam_size = 2` with a concrete
builder. -/
theorem search_max_len_zero_witness :
    search (fun _ (ctx : ℕ) => ([5, 7], [-1], ctx)) id 2 (0 : ℕ) 0 false =
      [([], 0)] :=
  (search_max_len_zero (fun _ (ctx : ℕ) => ([5, 7], [-1], ctx)) id 2 0 false
    (by norm_num)).1

/-- Claim C1 (confirmed): in deterministic mode, for every `beam_size ≥ 1` and
every builder, the returned sequence has length at most `beam_size` and is
sorted by descending probability (`exp` of the final score); and whenever a
pruning pool holds at most `beam_size` branches, pruning keeps all of them (a
permutation of the pool — no error, no padding). -/
theorem search_det_sorted_and_bounded {τ γ : Type} (build : Builder τ γ)
    (sample : Sampler τ γ) (bs : ℤ) (ctx : γ) (ml : ℤ) (h : 1 ≤ bs) :
    (search build sample bs ctx ml false).length ≤ bs.toNat ∧
    (search build sample bs ctx ml false).Pairwise
      (fun p q => Real.exp ((q.2 : ℝ)) ≤ Real.exp ((p.2 : ℝ))) ∧
    (∀ pool : List (Branch τ γ), pool.length ≤ bs.toNat →
      (pruneBranches sample pool bs false).Perm pool) := by
  have hbs0 : (0 : ℤ) ≤ bs := by omega
  rcases Nat.eq_zero_or_pos ml.toNat with h0 | hpos
  · have hsr : search build sample bs ctx ml false = [([], 0)] := by
      simp [search, h0, rootBranch]
    rw [hsr]
    refine ⟨?_, by simp, fun pool hp => pruneBranches_det_perm_of_le sample hp⟩
    have h1 : 1 ≤ bs.toNat := by omega
    simpa using h1
  · obtain ⟨m, hm⟩ : ∃ m, ml.toNat = m + 1 := ⟨ml.toNat - 1, by omega⟩
    have hsr : search build sample bs ctx ml false =
        (searchStep build sample bs false
          ((searchStep build sample bs false)^[m] [rootBranch ctx])).map
          (fun branch => (branch.content, branch.score)) := by
      simp only [search, hm, Function.iterate_succ_apply']
    refine ⟨?_, ?_, fun pool hp => pruneBranches_det_perm_of_le sample hp⟩
    · rw [hsr, List.length_map]
      exact pruneBranches_det_length_le sample _ hbs0
    · rw [hsr]
      refine List.pairwise_map.mpr ?_
      refine List.Pairwise.imp ?_ (pruneBranches_det_sorted sample _ bs)
      intro a b hab
      exact Real.exp_le_exp.mpr (by exact_mod_cast hab)

/-- Witness for the sortedness/boundedness claim at a concrete deterministic
search with `beam_size = 2` and `max_len = 2`. -/
theorem search_det_sorted_and_bounded_witness :
    (search (fun _ (ctx : ℕ) => ([0, 1], [-1, -2], ctx)) id 2 (0 : ℕ) 2
        false).length ≤ ((2 : ℤ)).toNat :=
  (search_det_sorted_and_bounded (fun _ (ctx : ℕ) => ([0, 1], [-1, -2], ctx)) id 2
    (0 : ℕ) 2 (by norm_num)).1

namespace BeamSearch

theorem stepsTo_snoc {τ γ : Type} {build : Builder τ γ} {p q r : Branch τ γ}
    {logs : List ℚ} {s : ℚ} (h : StepsTo build p q logs) (h2 : OneStep build q r s) :
    StepsTo build p r (logs ++ [s]) := by
  induction h with
  | refl b => exact StepsTo.step h2 (StepsTo.refl r)
  | step h1 _ ih => exact StepsTo.step h1 (ih h2)

theorem pruneBranches_mem {τ γ : Type} {sample : Sampler τ γ}
    (hs : ∀ xs : List (Branch τ γ), (sample xs).Perm xs) {l : List (Branch τ γ)}
    {bs : ℤ} {prob : Bool} {b : Branch τ γ} (hb : b ∈ pruneBranches sample l bs prob) :
    b ∈ l := by
  cases prob with
  | false => exact (pruneBranches_det_subperm sample l bs).subset hb
  | true =>
    simp only [pruneBranches, sortList] at hb
    have hb2 : b ∈ sample l := (pyTake_sublist _ _).subset (by simpa using hb)
    exact (hs l).subset hb2

theorem mem_getBranches_oneStep {τ γ : Type} {build : Builder τ γ}
    {sample : Sampler τ γ} {p b : Branch τ γ} {bs : ℤ} {prob : Bool}
    (hb : b ∈ getBranches build sample p bs prob) :
    ∃ s : ℚ, OneStep build p b s := by
  simp only [getBranches] at hb
  rcases List.mem_map.mp hb with ⟨node, hnode, rfl⟩
  have hnode2 : node ∈ ((build p.content p.context).1.zip
      (build p.content p.context).2.1).map
      (fun cs => (⟨[cs.1], cs.2, (build p.content p.context).2.2⟩ : Branch τ γ)) := by
    cases prob with
    | false =>
      rw [if_pos rfl] at hnode
      exact (pruneBranches_det_subperm _ _ _).subset hnode
    | true =>
      rw [if_neg (by simp)] at hnode
      exact hnode
  rcases List.mem_map.mp hnode2 with ⟨cs, hcs, rfl⟩
  refine ⟨cs.2, cs.1, by simpa using hcs, ?_⟩
  simp [merge]

/-- Invariant of the search loop: every branch of the beam after `k` completed
steps is reachable from the root by builder-reported expansion steps, its
score is the sum of the reported per-token log-probabilities, and its content
has length exactly `k`.  The sampling oracle is assumed to return permutations,
as `np.random.choice` over all indices without replacement does. -/
theorem beam_invariant {τ γ : Type} (build : Builder τ γ) (sample : Sampler τ γ)
    (hs : ∀ xs : List (Branch τ γ), (sample xs).Perm xs) (bs : ℤ) (ctx : γ)
    (prob : Bool) :
    ∀ k : ℕ, ∀ b ∈ (searchStep build sample bs prob)^[k]
      ([rootBranch ctx] : List (Branch τ γ)),
      ∃ logs : List ℚ, StepsTo build (rootBranch ctx) b logs ∧ logs.length = k ∧
        b.score = logs.sum ∧ b.content.length = k := by
  intro k
  induction k with
  | zero =>
    intro b hb
    have hb2 : b = rootBranch ctx := by simpa using hb
    subst hb2
    exact ⟨[], StepsTo.refl _, rfl, rfl, rfl⟩
  | succ m ih =>
    intro b hb
    rw [Function.iterate_succ_apply'] at hb
    have hpool : b ∈ (((searchStep build sample bs prob)^[m]
        ([rootBranch ctx] : List (Branch τ γ))).map
          (fun branch => getBranches build sample branch bs prob)).flatten :=
      pruneBranches_mem hs hb
    rcases List.mem_flatten.mp hpool with ⟨gl, hgl, hbgl⟩
    rcases List.mem_map.mp hgl with ⟨p, hp, rfl⟩
    rcases mem_getBranches_oneStep hbgl with ⟨s, hone⟩
    rcases ih p hp with ⟨logs, hsteps, hlen, hscore, hclen⟩
    obtain ⟨c, hcz, hbeq⟩ := hone
    refine ⟨logs ++ [s], stepsTo_snoc hsteps ⟨c, hcz, hbeq⟩, by simp [hlen], ?_, ?_⟩
    · rw [hbeq]
      simp [hscore]
    · rw [hbeq]
      simp [hclen]

end BeamSearch

/-- Claim C2 (confirmed): after `k` completed search steps every branch of the
beam has content of length exactly `k` and score equal to the sum of the
per-token log-probabilities the builder reported along its path from the root;
consequently every pair returned by `search` with parameter `max_len` has
content of length `max_len` (i.e. `max_len.toNat` steps were run).  The
sampling oracle is assumed to return permutations of its input, as the
source's `np.random.choice` draw does. -/
theorem beam_content_length_and_score_sum {τ γ : Type} (build : Builder τ γ)
    (sample : Sampler τ γ) (hs : ∀ xs : List (Branch τ γ), (sample xs).Perm xs)
    (bs : ℤ) (ctx : γ) (prob : Bool) :
    (∀ k : ℕ, ∀ b ∈ (searchStep build sample bs prob)^[k]
        ([rootBranch ctx] : List (Branch τ γ)),
      b.content.length = k ∧
        ∃ logs : List ℚ, StepsTo build (rootBranch ctx) b logs ∧
          logs.length = k ∧ b.score = logs.sum) ∧
    (∀ ml : ℤ, ∀ p ∈ search build sample bs ctx ml prob, p.1.length = ml.toNat) := by
  constructor
  · intro k b hb
    rcases beam_invariant build sample hs bs ctx prob k b hb with
      ⟨logs, hsteps, hlen, hscore, hclen⟩
    exact ⟨hclen, logs, hsteps, hlen, hscore⟩
  · intro ml p hp
    rcases List.mem_map.mp hp with ⟨b, hb, rfl⟩
    rcases beam_invariant build sample hs bs ctx prob ml.toNat b hb with
      ⟨logs, hsteps, hlen, hscore, hclen⟩
    exact hclen

/-- Witness for the content-length/score invariant at a concrete search
(`beam_size = 2`, one step, builder with a single zipped candidate). -/
theorem beam_content_length_and_score_sum_witness :
    (([5], (-1 : ℚ)) ∈
      search (fun _ (ctx : ℕ) => ([5, 7], [-1], ctx)) id 2 (0 : ℕ) 1 false) ∧
    (([5], (-1 : ℚ)) : List ℕ × ℚ).1.length = ((1 : ℤ)).toNat := by
  have he : search (fun _ (ctx : ℕ) => ([5, 7], [-1], ctx)) id 2 (0 : ℕ) 1 false =
      [([5], -1)] := by
    simp only [search, Int.toNat_one]
    norm_num [searchStep, pruneBranches, getBranches, sortList, sortDescBy,
      insertDesc, pyTake, merge, rootBranch,
      Function.iterate_succ_apply', Function.iterate_zero_apply]
  refine ⟨by rw [he]; simp, ?_⟩
  exact (beam_content_length_and_score_sum (fun _ (ctx : ℕ) => ([5, 7], [-1], ctx))
    id (fun xs => List.Perm.refl xs) 2 (0 : ℕ) false).2 1 ([5], -1) (by rw [he]; simp)

/-- Claim C3 (confirmed): every pair returned by `search` comes from a final
branch whose probability — `exp` of the returned score, as the finalization
computes it — equals `exp` of the sum of the per-token log-probabilities the
builder reported along the branch's path, with no renormalization; and the log
of the reported probability is exactly that sum. -/
theorem returned_probability_eq_exp_path_sum {τ γ : Type} (build : Builder τ γ)
    (sample : Sampler τ γ) (hs : ∀ xs : List (Branch τ γ), (sample xs).Perm xs)
    (bs : ℤ) (ctx : γ) (ml : ℤ) (prob : Bool) :
    ∀ p ∈ search build sample bs ctx ml prob,
      ∃ (b : Branch τ γ) (logs : List ℚ),
        b ∈ (searchStep build sample bs prob)^[ml.toNat]
          ([rootBranch ctx] : List (Branch τ γ)) ∧
        p = (b.content, b.score) ∧
        StepsTo build (rootBranch ctx) b logs ∧
        Real.exp ((p.2 : ℝ)) = Real.exp (((logs.sum : ℚ) : ℝ)) ∧
        Real.log (Real.exp ((p.2 : ℝ))) = ((logs.sum : ℚ) : ℝ) := by
  intro p hp
  rcases List.mem_map.mp hp with ⟨b, hb, rfl⟩
  rcases beam_invariant build sample hs bs ctx prob ml.toNat b hb with
    ⟨logs, hsteps, hlen, hscore, hclen⟩
  refine ⟨b, logs, hb, rfl, hsteps, ?_, ?_⟩
  · rw [hscore]
  · rw [Real.log_exp, hscore]

/-- Witness for the probability/path-sum claim at a concrete search. -/
theorem returned_probability_eq_exp_path_sum_witness :
    ∃ (b : Branch ℕ ℕ) (logs : List ℚ),
      b ∈ (searchStep (fun _ (ctx : ℕ) => ([5, 7], [-1], ctx)) id 2 false)^[((1 : ℤ)).toNat]
        ([rootBranch (0 : ℕ)] : List (Branch ℕ ℕ)) ∧
      (([5], (-1 : ℚ)) : List ℕ × ℚ) = (b.content, b.score) ∧
      StepsTo (fun _ (ctx : ℕ) => ([5, 7], [-1], ctx)) (rootBranch (0 : ℕ)) b logs ∧
      Real.exp (((([5], (-1 : ℚ)) : List ℕ × ℚ).2 : ℝ)) =
        Real.exp (((logs.sum : ℚ) : ℝ)) ∧
      Real.log (Real.exp (((([5], (-1 : ℚ)) : List ℕ × ℚ).2 : ℝ))) =
        ((logs.sum : ℚ) : ℝ) := by
  have he : search (fun _ (ctx : ℕ) => ([5, 7], [-1], ctx)) id 2 (0 : ℕ) 1 false =
      [([5], -1)] := by
    simp only [search, Int.toNat_one]
    norm_num [searchStep, pruneBranches, getBranches, sortList, sortDescBy,
      insertDesc, pyTake, merge, rootBranch,
      Function.iterate_succ_apply', Function.iterate_zero_apply]
  exact returned_probability_eq_exp_path_sum (fun _ (ctx : ℕ) => ([5, 7], [-1], ctx))
    id (fun xs => List.Perm.refl xs) 2 (0 : ℕ) 1 false ([5], -1) (by rw [he]; simp)

namespace BeamSearch

theorem above_cons {τ γ : Type} (a x : Branch τ γ) (l : List (Branch τ γ)) :
    above (a :: l) x = above l x + if x.score < a.score then 1 else 0 := by
  simp [above, List.countP_cons]

theorem pairwise_lt_of_le_ne {τ γ : Type} {l : List (Branch τ γ)}
    (h1 : l.Pairwise (fun x y => y.score ≤ x.score))
    (h2 : l.Pairwise (fun x y => x.score ≠ y.score)) :
    l.Pairwise (fun x y => y.score < x.score) :=
  (h1.and h2).imp (fun h => lt_of_le_of_ne h.1 (fun he => h.2 he.symm))

theorem pairwise_ne_of_subperm {τ γ : Type} {l m : List (Branch τ γ)}
    (h : l.Subperm m) (hm : m.Pairwise (fun x y => x.score ≠ y.score)) :
    l.Pairwise (fun x y => x.score ≠ y.score) := by
  obtain ⟨u, hu1, hu2⟩ := h
  exact (List.Perm.pairwise_iff (fun hxy => Ne.symm hxy) hu1).mp
    (List.Pairwise.sublist hu2 hm)

theorem subperm_append {α : Type} {l₁ l₂ r₁ r₂ : List α} (h1 : l₁.Subperm l₂)
    (h2 : r₁.Subperm r₂) : (l₁ ++ r₁).Subperm (l₂ ++ r₂) := by
  obtain ⟨u, hu1, hu2⟩ := h1
  obtain ⟨v, hv1, hv2⟩ := h2
  exact ⟨u ++ v, hu1.append hv1, hu2.append hv2⟩

theorem flatten_map_subperm {τ γ : Type} (B : List (Branch τ γ))
    (f g : Branch τ γ → List (Branch τ γ)) (h : ∀ p ∈ B, (f p).Subperm (g p)) :
    ((B.map f).flatten).Subperm ((B.map g).flatten) := by
  induction B with
  | nil => simp
  | cons a t ih =>
    simp only [List.map_cons, List.flatten_cons]
    exact subperm_append (h a (by simp))
      (ih (fun p hp => h p (List.mem_cons_of_mem a hp)))

theorem sorted_strict_ext {τ γ : Type} : ∀ {l₁ l₂ : List (Branch τ γ)},
    l₁.Pairwise (fun x y => y.score < x.score) →
    l₂.Pairwise (fun x y => y.score < x.score) →
    (∀ x, x ∈ l₁ ↔ x ∈ l₂) → l₁ = l₂ := by
  intro l₁
  induction l₁ with
  | nil =>
    intro l₂ _ _ hm
    cases l₂ with
    | nil => rfl
    | cons b s => exact absurd ((hm b).mpr (by simp)) (by simp)
  | cons a t ih =>
    intro l₂ h1 h2 hm
    cases l₂ with
    | nil => exact absurd ((hm a).mp (by simp)) (by simp)
    | cons b s =>
      rcases List.pairwise_cons.mp h1 with ⟨ha, ht⟩
      rcases List.pairwise_cons.mp h2 with ⟨hb, hs⟩
      have hab : a = b := by
        rcases List.mem_cons.mp ((hm a).mp (by simp)) with he | ha2
        · exact he
        · rcases List.mem_cons.mp ((hm b).mpr (by simp)) with he | hb2
          · exact he.symm
          · exact absurd (hb a ha2) (not_lt.mpr (le_of_lt (ha b hb2)))
      subst hab
      have hts : ∀ x, x ∈ t ↔ x ∈ s := by
        intro x
        constructor
        · intro hx
          have hxa : x.score < a.score := ha x hx
          rcases List.mem_cons.mp ((hm x).mp (List.mem_cons_of_mem a hx)) with he | hx2
          · exact absurd hxa (by rw [he]; exact lt_irrefl _)
          · exact hx2
        · intro hx
          have hxa : x.score < a.score := hb x hx
          rcases List.mem_cons.mp ((hm x).mpr (List.mem_cons_of_mem a hx)) with he | hx2
          · exact absurd hxa (by rw [he]; exact lt_irrefl _)
          · exact hx2
      rw [ih ht hs hts]

theorem mem_take_sorted {τ γ : Type} : ∀ {l : List (Branch τ γ)},
    l.Pairwise (fun x y => y.score < x.score) → ∀ (k : ℕ) (x : Branch τ γ),
    (x ∈ l.take k ↔ x ∈ l ∧ above l x < k) := by
  intro l
  induction l with
  | nil =>
    intro _ k x
    simp
  | cons a t ih =>
    intro hl k x
    rcases List.pairwise_cons.mp hl with ⟨ha, ht⟩
    cases k with
    | zero => simp
    | succ m =>
      rw [List.take_succ_cons]
      by_cases hxa : x = a
      · subst hxa
        have h0 : above (x :: t) x = 0 := by
          simp only [above, List.countP_eq_zero]
          intro y hy
          rcases List.mem_cons.mp hy with he | hy2
          · subst he
            simp
          · simp [not_lt.mpr (le_of_lt (ha y hy2))]
        simp [h0]
      · have hlt := ih ht m x
        rw [above_cons]
        constructor
        · intro hx
          have hx2 : x ∈ List.take m t := by
            rcases List.mem_cons.mp hx with he | hx2
            · exact absurd he hxa
            · exact hx2
          rcases hlt.mp hx2 with ⟨hxt, hcount⟩
          refine ⟨List.mem_cons_of_mem a hxt, ?_⟩
          rw [if_pos (ha x hxt)]
          omega
        · rintro ⟨hx, hcount⟩
          rcases List.mem_cons.mp hx with he | hxt
          · exact absurd he hxa
          · rw [if_pos (ha x hxt)] at hcount
            exact List.mem_cons_of_mem a (hlt.mpr ⟨hxt, by omega⟩)

theorem above_take_sorted {τ γ : Type} : ∀ {l : List (Branch τ γ)},
    l.Pairwise (fun x y => y.score ≤ x.score) → ∀ (k : ℕ) (x : Branch τ γ),
    above (l.take k) x = min k (above l x) := by
  intro l
  induction l with
  | nil =>
    intro _ k x
    simp [above]
  | cons a t ih =>
    intro hl k x
    rcases List.pairwise_cons.mp hl with ⟨ha, ht⟩
    cases k with
    | zero => simp [above]
    | succ m =>
      rw [List.take_succ_cons, above_cons, above_cons, ih ht m x]
      by_cases hxa : x.score < a.score
      · rw [if_pos hxa]
        omega
      · rw [if_neg hxa]
        have h0 : above t x = 0 := by
          simp only [above, List.countP_eq_zero]
          intro y hy
          simp [not_lt.mpr (le_trans (ha y hy) (not_lt.mp hxa))]
        rw [h0]
        simp

theorem mem_pruneBranches_det {τ γ : Type} {sample : Sampler τ γ}
    {l : List (Branch τ γ)} {bs : ℤ} (hbs : 0 ≤ bs)
    (hd : l.Pairwise (fun x y => x.score ≠ y.score)) (x : Branch τ γ) :
    x ∈ pruneBranches sample l bs false ↔ x ∈ l ∧ above l x < bs.toNat := by
  rw [pruneBranches_det, pyTake, if_pos hbs]
  have hperm : (sortDescBy (fun branch => branch.score) l).Perm l := sortDescBy_perm _ _
  have hdist : (sortDescBy (fun branch => branch.score) l).Pairwise
      (fun x y => x.score ≠ y.score) :=
    (List.Perm.pairwise_iff (fun hxy => Ne.symm hxy) hperm).mpr hd
  have hstrict := pairwise_lt_of_le_ne (sortDescBy_sorted _ _) hdist
  rw [mem_take_sorted hstrict bs.toNat x]
  have heq : above (sortDescBy (fun branch => branch.score) l) x = above l x :=
    List.Perm.countP_eq _ hperm
  constructor
  · rintro ⟨h1, h2⟩
    exact ⟨hperm.subset h1, lt_of_eq_of_lt heq.symm h2⟩
  · rintro ⟨h1, h2⟩
    exact ⟨hperm.mem_iff.mpr h1, lt_of_eq_of_lt heq h2⟩

theorem above_pruneBranches_det {τ γ : Type} (sample : Sampler τ γ)
    (l : List (Branch τ γ)) {bs : ℤ} (hbs : 0 ≤ bs) (x : Branch τ γ) :
    above (pruneBranches sample l bs false) x = min bs.toNat (above l x) := by
  rw [pruneBranches_det, pyTake, if_pos hbs,
    above_take_sorted (sortDescBy_sorted _ _) bs.toNat x]
  congr 1
  exact List.Perm.countP_eq _ (sortDescBy_perm _ _)

end BeamSearch

namespace BeamSearch

theorem getBranchesFull_eq_nodes {τ γ : Type} (build : Builder τ γ) (p : Branch τ γ) :
    getBranchesFull build p = (nodesOf build p).map (fun node => merge p node) := rfl

theorem getBranches_det_eq_nodes {τ γ : Type} (build : Builder τ γ)
    (sample : Sampler τ γ) (p : Branch τ γ) (bs : ℤ) :
    getBranches build sample p bs false =
      (pruneBranches sample (nodesOf build p) bs false).map
        (fun node => merge p node) := rfl

theorem above_map_merge {τ γ : Type} (p n : Branch τ γ) (l : List (Branch τ γ)) :
    above (l.map (fun node => merge p node)) (merge p n) = above l n := by
  simp only [above, List.countP_map]
  apply List.countP_congr
  intro m hm
  simp [merge]

theorem getBranches_det_eq {τ γ : Type} (build : Builder τ γ) (sample : Sampler τ γ)
    (p : Branch τ γ) {bs : ℤ} (hbs : 0 ≤ bs)
    (hd : (getBranchesFull build p).Pairwise (fun x y => x.score ≠ y.score)) :
    getBranches build sample p bs false =
      pruneBranches sample (getBranchesFull build p) bs false := by
  have hd2 : ((nodesOf build p).map (fun node => merge p node)).Pairwise
      (fun x y => x.score ≠ y.score) := by
    rw [← getBranchesFull_eq_nodes]
    exact hd
  have hdn : (nodesOf build p).Pairwise (fun x y => x.score ≠ y.score) := by
    refine (List.pairwise_map.mp hd2).imp ?_
    intro a b hne he
    exact hne (by simp [merge, he])
  rw [getBranches_det_eq_nodes, getBranchesFull_eq_nodes]
  apply sorted_strict_ext
  · refine List.pairwise_map.mpr ?_
    have hstrict := pairwise_lt_of_le_ne (pruneBranches_det_sorted sample (nodesOf build p) bs)
      (pairwise_ne_of_subperm (pruneBranches_det_subperm sample (nodesOf build p) bs) hdn)
    refine hstrict.imp ?_
    intro a b hlt
    simpa [merge] using hlt
  · exact pairwise_lt_of_le_ne (pruneBranches_det_sorted sample _ bs)
      (pairwise_ne_of_subperm (pruneBranches_det_subperm sample _ bs) hd2)
  · intro x
    constructor
    · intro hx
      rcases List.mem_map.mp hx with ⟨n, hn, rfl⟩
      rcases (mem_pruneBranches_det hbs hdn n).mp hn with ⟨hn2, hcnt⟩
      refine (mem_pruneBranches_det hbs hd2 (merge p n)).mpr
        ⟨List.mem_map_of_mem _ hn2, ?_⟩
      rw [above_map_merge]
      exact hcnt
    · intro hx
      rcases (mem_pruneBranches_det hbs hd2 x).mp hx with ⟨hx2, hcnt⟩
      rcases List.mem_map.mp hx2 with ⟨n, hn, rfl⟩
      rw [above_map_merge] at hcnt
      exact List.mem_map_of_mem _ ((mem_pruneBranches_det hbs hdn n).mpr ⟨hn, hcnt⟩)

theorem searchStep_det_eq_full {τ γ : Type} (build : Builder τ γ)
    (sample : Sampler τ γ) {bs : ℤ} (hbs : 0 ≤ bs) (B : List (Branch τ γ))
    (hd : (stepPool build B).Pairwise (fun x y => x.score ≠ y.score)) :
    searchStep build sample bs false B = searchStepFull build sample bs B := by
  have hgroups : ∀ p ∈ B,
      (getBranchesFull build p).Pairwise (fun x y => x.score ≠ y.score) := by
    intro p hp
    have hcomp := (List.pairwise_flatten.mp hd).1
    exact hcomp _ (List.mem_map_of_mem _ hp)
  have hmap : B.map (fun p => getBranches build sample p bs false) =
      B.map (fun p => pruneBranches sample (getBranchesFull build p) bs false) :=
    List.map_congr_left (fun p hp => getBranches_det_eq build sample p hbs (hgroups p hp))
  have hstep : searchStep build sample bs false B =
      pruneBranches sample
        ((B.map (fun p => pruneBranches sample (getBranchesFull build p) bs false)).flatten)
        bs false := by
    simp only [searchStep]
    rw [hmap]
  have hfull : searchStepFull build sample bs B =
      pruneBranches sample ((B.map (fun p => getBranchesFull build p)).flatten) bs false := rfl
  have hsub : ((B.map (fun p =>
      pruneBranches sample (getBranchesFull build p) bs false)).flatten).Subperm
      ((B.map (fun p => getBranchesFull build p)).flatten) :=
    flatten_map_subperm B _ _ (fun p hp => pruneBranches_det_subperm sample _ bs)
  have hdP : ((B.map (fun p => getBranchesFull build p)).flatten).Pairwise
      (fun x y => x.score ≠ y.score) := hd
  have hdPl : ((B.map (fun p =>
      pruneBranches sample (getBranchesFull build p) bs false)).flatten).Pairwise
      (fun x y => x.score ≠ y.score) := pairwise_ne_of_subperm hsub hdP
  have haboveP : ∀ x : Branch τ γ,
      above ((B.map (fun p => getBranchesFull build p)).flatten) x =
        (B.map (fun p => above (getBranchesFull build p) x)).sum := by
    intro x
    simp only [above, List.countP_flatten, List.map_map]
    rfl
  have habovePl : ∀ x : Branch τ γ,
      above ((B.map (fun p =>
          pruneBranches sample (getBranchesFull build p) bs false)).flatten) x =
        (B.map (fun p => min bs.toNat (above (getBranchesFull build p) x))).sum := by
    intro x
    simp only [above, List.countP_flatten, List.map_map]
    congr 1
    apply List.map_congr_left
    intro p hp
    exact above_pruneBranches_det sample _ hbs x
  rw [hstep, hfull]
  apply sorted_strict_ext
  · exact pairwise_lt_of_le_ne (pruneBranches_det_sorted sample _ bs)
      (pairwise_ne_of_subperm (pruneBranches_det_subperm sample _ bs) hdPl)
  · exact pairwise_lt_of_le_ne (pruneBranches_det_sorted sample _ bs)
      (pairwise_ne_of_subperm (pruneBranches_det_subperm sample _ bs) hdP)
  · intro x
    rw [mem_pruneBranches_det hbs hdPl x, mem_pruneBranches_det hbs hdP x]
    constructor
    · rintro ⟨hx, hcnt⟩
      refine ⟨hsub.subset hx, ?_⟩
      rw [haboveP x]
      rw [habovePl x] at hcnt
      have hterm : ∀ p ∈ B, min bs.toNat (above (getBranchesFull build p) x) =
          above (getBranchesFull build p) x := by
        intro p hp
        have hle : min bs.toNat (above (getBranchesFull build p) x) ≤
            (B.map (fun q => min bs.toNat (above (getBranchesFull build q) x))).sum :=
          List.single_le_sum (fun y hy => Nat.zero_le y) _ (List.mem_map_of_mem _ hp)
        omega
      rw [← List.map_congr_left hterm]
      exact hcnt
    · rintro ⟨hx, hcnt⟩
      rw [haboveP x] at hcnt
      rcases List.mem_flatten.mp hx with ⟨gl, hgl, hxgl⟩
      rcases List.mem_map.mp hgl with ⟨p, hpB, rfl⟩
      have hgle : above (getBranchesFull build p) x ≤
          (B.map (fun q => above (getBranchesFull build q) x)).sum :=
        List.single_le_sum (fun y hy => Nat.zero_le y) _ (List.mem_map_of_mem _ hpB)
      have hgcnt : above (getBranchesFull build p) x < bs.toNat := by omega
      have hxin : x ∈ pruneBranches sample (getBranchesFull build p) bs false :=
        (mem_pruneBranches_det hbs (hgroups p hpB) x).mpr ⟨hxgl, hgcnt⟩
      refine ⟨List.mem_flatten.mpr ⟨_, List.mem_map_of_mem _ hpB, hxin⟩, ?_⟩
      calc above ((B.map (fun p =>
            pruneBranches sample (getBranchesFull build p) bs false)).flatten) x
          ≤ above ((B.map (fun p => getBranchesFull build p)).flatten) x :=
            List.Subperm.countP_le _ hsub
        _ = (B.map (fun q => above (getBranchesFull build q) x)).sum := haboveP x
        _ < bs.toNat := hcnt

end BeamSearch

/-- Claim C9 (confirmed): in deterministic mode, provided every step's full
candidate pool (the pool of the variant without local pruning) has pairwise
distinct scores and `beam_size` is nonnegative, the intra-branch local prune
of `_get_branches` does not change the result: the search returns the same
beam as the spec-modelled variant that skips the local prune and applies only
the global top-`beam_size` prune over the full pool. -/
theorem search_local_prune_equiv {τ γ : Type} (build : Builder τ γ)
    (sample : Sampler τ γ) (bs : ℤ) (ctx : γ) (ml : ℤ) (hbs : 0 ≤ bs)
    (hd : ∀ k < ml.toNat,
      (stepPool build ((searchStepFull build sample bs)^[k]
        ([rootBranch ctx] : List (Branch τ γ)))).Pairwise
        (fun x y => x.score ≠ y.score)) :
    search build sample bs ctx ml false = searchFull build sample bs ctx ml := by
  have hit : ∀ k, k ≤ ml.toNat →
      (searchStep build sample bs false)^[k] ([rootBranch ctx] : List (Branch τ γ)) =
        (searchStepFull build sample bs)^[k] ([rootBranch ctx] : List (Branch τ γ)) := by
    intro k
    induction k with
    | zero =>
      intro _
      rfl
    | succ m ih =>
      intro hk
      rw [Function.iterate_succ_apply', Function.iterate_succ_apply', ih (by omega)]
      exact searchStep_det_eq_full build sample hbs _ (hd m (by omega))
  simp only [search, searchFull, hit ml.toNat le_rfl]

/-- Witness for the local-prune equivalence at a concrete two-candidate
builder with distinct scores, `beam_size = 1`, `max_len = 2`. -/
theorem search_local_prune_equiv_witness :
    search (fun _ (ctx : ℕ) => ([0, 1], [-1, -2], ctx)) id 1 (0 : ℕ) 2 false =
      searchFull (fun _ (ctx : ℕ) => ([0, 1], [-1, -2], ctx)) id 1 (0 : ℕ) 2 := by
  refine search_local_prune_equiv (fun _ (ctx : ℕ) => ([0, 1], [-1, -2], ctx)) id 1
    (0 : ℕ) 2 (by norm_num) ?_
  have h2 : ((2 : ℤ)).toNat = 2 := rfl
  rw [h2]
  intro k hk
  interval_cases k
  · norm_num [stepPool, getBranchesFull, searchStepFull, pruneBranches, sortList,
      sortDescBy, insertDesc, pyTake, merge, rootBranch, List.pairwise_cons,
      Function.iterate_succ_apply', Function.iterate_zero_apply]
  · norm_num [stepPool, getBranchesFull, searchStepFull, pruneBranches, sortList,
      sortDescBy, insertDesc, pyTake, merge, rootBranch, List.pairwise_cons,
      Function.iterate_succ_apply', Function.iterate_zero_apply]

end Captioner
